import Mathlib

/-!
Verification of the core logic of the memory-trainer repository
(src/src/App.jsx and src/unnamed/part_000, which contain the same
utility functions).

Strings of the JavaScript source are modelled as lists of Unicode
characters (`List Char`).  Each definition below is a direct
translation of the correspondingly named function of the source file;
its doc comment points at the construct it embeds.  JavaScript numbers
appearing in the source are nonnegative integers here (word counts,
seconds) and exact rationals where real division occurs
(the words-per-minute computation); Math.round on a nonnegative
rational q is modelled as the floor of q + 1/2, which is its exact
value for nonnegative arguments.
-/

namespace MemoryTrainer

/-- Character class of the bracket range U+200B through U+200D plus
U+FEFF used by the sanitize regex: the zero-width space, zero-width
non-joiner and zero-width joiner together with the byte-order mark.
Note the range stops at U+200D: the left-to-right mark U+200E is not in
the class. -/
def isZeroWidth (c : Char) : Bool :=
  decide ((0x200B ≤ c.toNat ∧ c.toNat ≤ 0x200D) ∨ c.toNat = 0xFEFF)

/-- Embeds sanitize of App.jsx: the global replace of the zero-width
class by the empty string deletes every character of the class and
keeps everything else in order. -/
def sanitize (s : List Char) : List Char :=
  s.filter (fun c => !(isZeroWidth c))

/-- Character class of the regex [\p{P}\p{S}] used by stripPunctuation,
restricted to the ASCII range of the Unicode punctuation and symbol
categories (which on ASCII is exactly the four blocks below); the full
Unicode category tables are outside the scope of this embedding and no
claim depends on a non-ASCII member of the class. -/
def isPuncSym (c : Char) : Bool :=
  decide ((0x21 ≤ c.toNat ∧ c.toNat ≤ 0x2F) ∨ (0x3A ≤ c.toNat ∧ c.toNat ≤ 0x40) ∨
    (0x5B ≤ c.toNat ∧ c.toNat ≤ 0x60) ∨ (0x7B ≤ c.toNat ∧ c.toNat ≤ 0x7E))

/-- Embeds stripPunctuation of App.jsx:
s.replace(/[\p{P}\p{S}]/gu, "") deletes every punctuation or symbol
character and keeps everything else in order. -/
def stripPunctuation (s : List Char) : List Char :=
  s.filter (fun c => !(isPuncSym c))

/-- Embeds s.toLowerCase() applied inside normalize, using the
character-wise basic-latin lower-casing Char.toLower (A-Z to a-z); the
additional non-ASCII case foldings of the JavaScript method are outside
the scope of this embedding and no claim depends on them. -/
def toLowerString (s : List Char) : List Char :=
  s.map Char.toLower

/-- The options record { ignoreCase, ignorePunc } of App.jsx (the spec
calls the second field ignorePunctuation). -/
structure Options where
  ignoreCase : Bool
  ignorePunc : Bool
deriving DecidableEq

/-- Embeds normalize of App.jsx: sanitize first, then optionally
stripPunctuation, then optionally lower-case, in that order. -/
def normalize (s : List Char) (o : Options) : List Char :=
  let out1 := sanitize s
  let out2 := if o.ignorePunc then stripPunctuation out1 else out1
  if o.ignoreCase then toLowerString out2 else out2

/-- The ECMAScript whitespace class matched by the regex \s (and removed
at the ends by String.prototype.trim): tab through carriage return,
space, no-break space, the Unicode space separators, the line and
paragraph separators, and U+FEFF. -/
def isJsWhitespace (c : Char) : Bool :=
  decide ((0x9 ≤ c.toNat ∧ c.toNat ≤ 0xD) ∨ c.toNat = 0x20 ∨ c.toNat = 0xA0 ∨
    c.toNat = 0x1680 ∨ (0x2000 ≤ c.toNat ∧ c.toNat ≤ 0x200A) ∨ c.toNat = 0x2028 ∨
    c.toNat = 0x2029 ∨ c.toNat = 0x202F ∨ c.toNat = 0x205F ∨ c.toNat = 0x3000 ∨
    c.toNat = 0xFEFF)

/-- Recursion underlying splitWords: walk the characters keeping the
(reversed) current word in acc, emitting it when whitespace or the end
of the input is reached.  The result is the list of maximal non-empty
runs of non-whitespace characters, which is exactly what
s.trim().split(/\s+/).filter(Boolean) produces. -/
def wordsAux : List Char → List Char → List (List Char)
  | [], acc => if acc = [] then [] else [acc.reverse]
  | c :: cs, acc =>
    if isJsWhitespace c then
      if acc = [] then wordsAux cs [] else acc.reverse :: wordsAux cs []
    else wordsAux cs (c :: acc)

/-- Embeds splitWords of App.jsx: s.trim().split(/\s+/).filter(Boolean),
the whitespace-delimited words of s in order, empty tokens discarded. -/
def splitWords (s : List Char) : List (List Char) :=
  wordsAux s []

/-- The stats record returned by calcStats. -/
structure Stats where
  accuracy : Nat
  wordsTyped : Nat
  totalWords : Nat
deriving DecidableEq

/-- Round-half-up of the rational a / b on nonnegative integers, written
with integer division: (2a + b) / (2b) equals the floor of a/b + 1/2.
This is the exact value of Math.round(a / b) for natural a and positive
b; the bridging theorems below restate it through the rational floor. -/
def roundDiv (a b : Nat) : Nat :=
  (2 * a + b) / (2 * b)

/-- Math.round on an exact nonnegative rational: the floor of q + 1/2
(Math.round rounds halves up). -/
def jsRound (q : ℚ) : ℤ :=
  ⌊q + 1/2⌋

/-- Embeds the counting loop of calcStats: for i below the length of the
shorter list, count the positions where both lists hold equal words. -/
def countCorrect : List (List Char) → List (List Char) → Nat
  | r :: rs, a :: ta => (if r = a then 1 else 0) + countCorrect rs ta
  | _, _ => 0

/-- Embeds calcStats of App.jsx.  total is refWords.length || 1, the
loop count is countCorrect, and
Math.max(0, Math.min(100, Math.round((correct / total) * 100))) is
written with roundDiv, which computes the same integer. -/
def calcStats (reference attempt : List Char) (opts : Options) : Stats :=
  let refN := normalize reference opts
  let attN := normalize attempt opts
  let refWords := splitWords refN
  let attWords := splitWords attN
  let total := if refWords.length = 0 then 1 else refWords.length
  let correct := countCorrect refWords attWords
  let accuracy := max 0 (min 100 (roundDiv (correct * 100) total))
  { accuracy := accuracy, wordsTyped := attWords.length, totalWords := refWords.length }

/-- The three per-word display states of the Highlighter: the source
strings "ok", "no" and "missing"; the spec calls them matched,
mismatched and pending. -/
inductive WordState where
  | ok
  | no
  | missing
deriving DecidableEq

/-- Embeds the per-word state computation inside Highlighter:
refN and attN are refNWords[i] ?? "" and attNWords[i] ?? "", match is
the truthiness of refN && refN === attN, and the state is "missing"
when attN is empty (the attN === undefined arm of the source is
unreachable after the ?? "" default), "ok" when match holds, otherwise
"no". -/
def stateAt (refNWords attNWords : List (List Char)) (i : Nat) : WordState :=
  let refN := refNWords.getD i []
  let attN := attNWords.getD i []
  if attN = [] then WordState.missing
  else if refN ≠ [] ∧ refN = attN then WordState.ok
  else WordState.no

/-- Embeds the classification performed by the Highlighter component:
one pair (raw display word, state) per raw reference word, in order,
via refRawWords.map((rawWord, i) => ...).  The hideWords rendering
option replaces the displayed text only and is not part of the
classification. -/
def classify (reference attempt : List Char) (opts : Options) :
    List (List Char × WordState) :=
  let refRawWords := splitWords reference
  let refNWords := splitWords (normalize reference opts)
  let attNWords := splitWords (normalize attempt opts)
  refRawWords.enum.map (fun p => (p.2, stateAt refNWords attNWords p.1))

/-- The session state of MemoryTypingTrainer: the reference and attempt
texts, the hidden and started flags, and the elapsed-seconds counter of
useTimer. -/
structure Session where
  reference : List Char
  attempt : List Char
  hidden : Bool
  started : Bool
  seconds : Nat
deriving DecidableEq

/-- Embeds handleStart: setHidden(true); setStarted(true); reset();
setAttempt(""). -/
def handleStart (st : Session) : Session :=
  { st with hidden := true, started := true, seconds := 0, attempt := [] }

/-- Embeds handleReveal: setHidden(false); setStarted(false). -/
def handleReveal (st : Session) : Session :=
  { st with hidden := false, started := false }

/-- Embeds handleResetAll: setReference(""); setAttempt("");
setHidden(false); setStarted(false); reset(). -/
def handleResetAll (_ : Session) : Session :=
  { reference := [], attempt := [], hidden := false, started := false, seconds := 0 }

/-- The editing state of the spec: reference visible and timer stopped. -/
def isEditing (st : Session) : Bool :=
  !st.hidden && !st.started

/-- The practicing state of the spec: reference hidden and timer running. -/
def isPracticing (st : Session) : Bool :=
  st.hidden && st.started

/-- Embeds the minutes value of the wpm memo:
Math.max(1 / 60, seconds / 60) as an exact rational. -/
def wpmMinutes (seconds : Nat) : ℚ :=
  max (1/60) ((seconds : ℚ) / 60)

/-- Embeds the wpm memo: Math.round(stats.wordsTyped / minutes).  The
|| 0 guard of the source only replaces NaN and is the identity here
because the denominator is positive (see wpm_formula_spec). -/
def wpm (wordsTyped seconds : Nat) : ℤ :=
  jsRound ((wordsTyped : ℚ) / wpmMinutes seconds)

/-- Written from the words of claim C1 (not from the source): the number
of indices i below the length of the shorter list at which the two
lists hold equal words. -/
def specCorrectCount (refWords attWords : List (List Char)) : Nat :=
  (List.range (min refWords.length attWords.length)).countP
    (fun i => decide (refWords.getD i [] = attWords.getD i []))

/-- Written from the words of claim C1 (not from the source): round
correct divided by max 1 total, times 100, and clamp into [0, 100]. -/
def specAccuracy (correct total : Nat) : ℤ :=
  max 0 (min 100 (jsRound ((correct : ℚ) / ((max 1 total : Nat) : ℚ) * 100)))

/-- Written from the words of claim C3 (not from the source): the state
is pending when the i-th normalized attempt word is absent or empty,
matched when the i-th normalized reference word equals the i-th
normalized attempt word, and mismatched otherwise. -/
def claimState (refNWords attNWords : List (List Char)) (i : Nat) : WordState :=
  if attNWords.getD i [] = [] then WordState.missing
  else if refNWords.getD i [] = attNWords.getD i [] then WordState.ok
  else WordState.no

/- ---------------------------------------------------------------- -/
/- Helper lemmas.                                                    -/
/- ---------------------------------------------------------------- -/

lemma toNat_toLower (c : Char) :
    (Char.toLower c).toNat = if 65 ≤ c.toNat ∧ c.toNat ≤ 90 then c.toNat + 32 else c.toNat := by
  rw [Char.toLower]
  by_cases h : 65 ≤ c.toNat ∧ c.toNat ≤ 90
  · rw [if_pos ⟨h.1, h.2⟩, if_pos h, Char.ofNat, dif_pos (Or.inl (by omega))]
    rfl
  · rw [if_neg ?hc, if_neg h]
    case hc => exact fun hh => h ⟨hh.1, hh.2⟩

lemma toLower_eq_self {c : Char} (h : ¬(65 ≤ c.toNat ∧ c.toNat ≤ 90)) :
    Char.toLower c = c := by
  rw [Char.toLower, if_neg (fun hh => h ⟨hh.1, hh.2⟩)]

lemma toLower_toLower (c : Char) : Char.toLower (Char.toLower c) = Char.toLower c := by
  have h := toNat_toLower c
  apply toLower_eq_self
  rw [h]
  split_ifs with hc <;> omega

lemma isZeroWidth_toLower (c : Char) : isZeroWidth (Char.toLower c) = isZeroWidth c := by
  have h := toNat_toLower c
  simp only [isZeroWidth, decide_eq_decide, h]
  split_ifs with hc <;> omega

lemma isPuncSym_toLower (c : Char) : isPuncSym (Char.toLower c) = isPuncSym c := by
  have h := toNat_toLower c
  simp only [isPuncSym, decide_eq_decide, h]
  split_ifs with hc <;> omega

lemma sanitize_sanitize (l : List Char) : sanitize (sanitize l) = sanitize l := by
  simp [sanitize, List.filter_filter]

lemma strip_strip (l : List Char) :
    stripPunctuation (stripPunctuation l) = stripPunctuation l := by
  simp [stripPunctuation, List.filter_filter]

lemma sanitize_strip (l : List Char) :
    sanitize (stripPunctuation l) = stripPunctuation (sanitize l) := by
  simp only [sanitize, stripPunctuation, List.filter_filter]
  congr 1
  funext c
  exact Bool.and_comm _ _

lemma sanitize_toLowerString (l : List Char) :
    sanitize (toLowerString l) = toLowerString (sanitize l) := by
  simp only [sanitize, toLowerString, List.filter_map]
  have h : ((fun c => !isZeroWidth c) ∘ Char.toLower) = (fun c : Char => !isZeroWidth c) := by
    funext c
    simp [Function.comp, isZeroWidth_toLower]
  rw [h]

lemma strip_toLowerString (l : List Char) :
    stripPunctuation (toLowerString l) = toLowerString (stripPunctuation l) := by
  simp only [stripPunctuation, toLowerString, List.filter_map]
  have h : ((fun c => !isPuncSym c) ∘ Char.toLower) = (fun c : Char => !isPuncSym c) := by
    funext c
    simp [Function.comp, isPuncSym_toLower]
  rw [h]

lemma toLowerString_toLowerString (l : List Char) :
    toLowerString (toLowerString l) = toLowerString l := by
  simp only [toLowerString, List.map_map]
  congr 1
  funext c
  simp [Function.comp, toLower_toLower]

lemma normalize_nil (o : Options) : normalize [] o = [] := by
  obtain ⟨ic, ip⟩ := o
  cases ic <;> cases ip <;> simp [normalize, sanitize, stripPunctuation, toLowerString]

lemma splitWords_nil : splitWords [] = [] := by
  simp [splitWords, wordsAux]

lemma wordsAux_ne_nil (s : List Char) :
    ∀ acc w, w ∈ wordsAux s acc → w ≠ [] := by
  induction s with
  | nil =>
    intro acc w hw
    rw [wordsAux] at hw
    split at hw
    · simp at hw
    · next hacc =>
      simp only [List.mem_singleton] at hw
      subst hw
      simpa using hacc
  | cons c cs ih =>
    intro acc w hw
    rw [wordsAux] at hw
    split at hw
    · split at hw
      · exact ih [] w hw
      · next hacc =>
        rcases List.mem_cons.mp hw with h | h
        · subst h
          simpa using hacc
        · exact ih [] w h
    · exact ih (c :: acc) w hw

lemma splitWords_ne_nil {s w : List Char} (hw : w ∈ splitWords s) : w ≠ [] :=
  wordsAux_ne_nil s [] w hw

lemma countCorrect_le_left : ∀ r a : List (List Char), countCorrect r a ≤ r.length := by
  intro r
  induction r with
  | nil =>
    intro a
    cases a <;> simp [countCorrect]
  | cons x xs ih =>
    intro a
    cases a with
    | nil => simp [countCorrect]
    | cons y ys =>
      rw [countCorrect]
      have h := ih ys
      simp only [List.length_cons]
      split_ifs <;> omega

lemma countCorrect_eq_spec : ∀ r a : List (List Char),
    countCorrect r a = specCorrectCount r a := by
  intro r
  induction r with
  | nil =>
    intro a
    cases a <;> simp [countCorrect, specCorrectCount]
  | cons x xs ih =>
    intro a
    cases a with
    | nil => simp [countCorrect, specCorrectCount]
    | cons y ys =>
      rw [countCorrect, specCorrectCount]
      have hmin : min (x :: xs).length (y :: ys).length = min xs.length ys.length + 1 := by
        simp [Nat.succ_min_succ]
      rw [hmin, List.range_succ_eq_map, List.countP_cons, List.countP_map]
      have hp : ((fun i => decide ((x :: xs).getD i [] = (y :: ys).getD i [])) ∘ Nat.succ) =
          (fun i => decide (xs.getD i [] = ys.getD i [])) := by
        funext i
        simp [Function.comp, List.getD_cons_succ]
      rw [hp, ih ys, specCorrectCount]
      simp only [List.getD_cons_zero, decide_eq_true_eq]
      by_cases h : x = y <;> omega

lemma classify_length (r a : List Char) (o : Options) :
    (classify r a o).length = (splitWords r).length := by
  simp [classify, List.enum_length]

lemma classify_getD (r a : List Char) (o : Options) (i : Nat)
    (hi : i < (splitWords r).length) :
    (classify r a o).getD i ([], WordState.missing) =
      ((splitWords r).getD i [],
        stateAt (splitWords (normalize r o)) (splitWords (normalize a o)) i) := by
  have hl : i < ((splitWords r).enum.map (fun p =>
      (p.2, stateAt (splitWords (normalize r o)) (splitWords (normalize a o)) p.1))).length := by
    simpa [List.enum_length] using hi
  simp only [classify, List.getD, List.get?_eq_getElem?, List.getElem?_eq_getElem hl,
    List.getElem?_eq_getElem hi, Option.getD_some, List.getElem_map, List.getElem_enum]

lemma state_if_eq (R A : List Char) :
    (if A = [] then WordState.missing
     else if R ≠ [] ∧ R = A then WordState.ok else WordState.no) =
    (if A = [] then WordState.missing
     else if R = A then WordState.ok else WordState.no) := by
  by_cases ha : A = []
  · simp [ha]
  · simp only [if_neg ha]
    by_cases he : R = A
    · rw [if_pos ⟨fun hn => ha (he.symm.trans hn), he⟩, if_pos he]
    · rw [if_neg (fun hc => he hc.2), if_neg he]

lemma stateAt_eq_claimState (refN attN : List (List Char)) (i : Nat) :
    stateAt refN attN i = claimState refN attN i :=
  state_if_eq (refN.getD i []) (attN.getD i [])

lemma jsRound_natDiv (a b : Nat) (hb : 0 < b) :
    jsRound ((a : ℚ) / (b : ℚ)) = (roundDiv a b : ℤ) := by
  have hb0 : ((b : ℚ)) ≠ 0 := by positivity
  have h1 : (a : ℚ) / (b : ℚ) + 1/2 = ((2 * a + b : ℕ) : ℚ) / ((2 * b : ℕ) : ℚ) := by
    push_cast
    field_simp
    ring
  rw [jsRound, h1, Rat.floor_natCast_div_natCast]
  rfl

lemma cast_clamp (x : Nat) :
    ((max 0 (min 100 x) : Nat) : ℤ) = max 0 (min 100 (x : ℤ)) := by
  push_cast
  rfl

lemma total_eq_max (n : Nat) : (if n = 0 then 1 else n) = max 1 n := by
  cases n with
  | zero => simp
  | succ m => simp [Nat.max_eq_right (Nat.succ_le_succ (Nat.zero_le m))]

lemma countCorrect_nil_left (a : List (List Char)) : countCorrect [] a = 0 := by
  cases a <;> rfl

lemma roundDiv_le_100 {c t : Nat} (ht : 0 < t) (hc : c ≤ t) : roundDiv (c * 100) t ≤ 100 := by
  unfold roundDiv
  have h1 : 2 * (c * 100) + t ≤ 100 * (2 * t) + t := by omega
  calc (2 * (c * 100) + t) / (2 * t) ≤ (100 * (2 * t) + t) / (2 * t) :=
        Nat.div_le_div_right h1
    _ = ((2 * t) * 100 + t) / (2 * t) := by rw [Nat.mul_comm 100 (2 * t)]
    _ = 100 + t / (2 * t) := Nat.mul_add_div (by omega) 100 t
    _ = 100 := by rw [Nat.div_eq_of_lt (by omega)]

lemma getD_out {l : List (List Char)} {i : Nat} (h : l.length ≤ i) : l.getD i [] = [] := by
  simp [List.getD, List.getElem?_eq_none h]

lemma getD_mem {l : List (List Char)} {i : Nat} (h : i < l.length) : l.getD i [] ∈ l := by
  simp only [List.getD, List.get?_eq_getElem?, List.getElem?_eq_getElem h, Option.getD_some]
  exact List.getElem_mem h

lemma calcStats_accuracy_eq (r a : List Char) (o : Options) :
    (calcStats r a o).accuracy =
      max 0 (min 100 (roundDiv
        (countCorrect (splitWords (normalize r o)) (splitWords (normalize a o)) * 100)
        (if (splitWords (normalize r o)).length = 0 then 1
         else (splitWords (normalize r o)).length))) := rfl

/- ---------------------------------------------------------------- -/
/- Claim theorems.                                                   -/
/- ---------------------------------------------------------------- -/

/-- Claim C5: normalize is idempotent — for every string s and every
options record o, normalize (normalize s o) o equals normalize s o. -/
theorem normalize_idempotent : ∀ (s : List Char) (o : Options),
    normalize (normalize s o) o = normalize s o := by
  intro s o
  obtain ⟨ic, ip⟩ := o
  cases ic <;> cases ip <;> simp only [normalize, Bool.false_eq_true, if_false, if_true]
  · exact sanitize_sanitize s
  · rw [sanitize_strip, sanitize_sanitize, strip_strip]
  · rw [sanitize_toLowerString, sanitize_sanitize, toLowerString_toLowerString]
  · rw [sanitize_toLowerString, sanitize_strip, sanitize_sanitize, strip_toLowerString,
      strip_strip, toLowerString_toLowerString]

/-- Claim C7: from any session state, handleStart zeroes the elapsed
seconds, clears the attempt, keeps the reference and enters practicing;
handleReveal stops the timer and leaves attempt, reference and seconds
unchanged; handleResetAll clears reference, attempt and seconds and
returns to editing regardless of the prior state; and handleReveal in
the editing state changes nothing. -/
theorem session_transitions_spec : ∀ st : Session,
    (handleStart st).seconds = 0 ∧
    (handleStart st).attempt = [] ∧
    (handleStart st).reference = st.reference ∧
    isPracticing (handleStart st) = true ∧
    (handleReveal st).started = false ∧
    (handleReveal st).hidden = false ∧
    (handleReveal st).attempt = st.attempt ∧
    (handleReveal st).reference = st.reference ∧
    (handleReveal st).seconds = st.seconds ∧
    handleResetAll st =
      { reference := [], attempt := [], hidden := false, started := false, seconds := 0 } ∧
    (isEditing st = true → handleReveal st = st) := by
  intro st
  obtain ⟨ref, att, hid, sta, sec⟩ := st
  refine ⟨rfl, rfl, rfl, rfl, rfl, rfl, rfl, rfl, rfl, rfl, ?_⟩
  intro h
  simp only [isEditing, Bool.and_eq_true, Bool.not_eq_true'] at h
  obtain ⟨h1, h2⟩ := h
  subst h1
  subst h2
  rfl

/-- Witness for claim C7 at a concrete editing-state session. -/
theorem session_transitions_spec_witness :
    isEditing ⟨['r'], ['a'], false, false, 7⟩ = true ∧
    handleReveal ⟨['r'], ['a'], false, false, 7⟩ = ⟨['r'], ['a'], false, false, 7⟩ :=
  ⟨by decide,
   (session_transitions_spec ⟨['r'], ['a'], false, false, 7⟩).2.2.2.2.2.2.2.2.2.2 (by decide)⟩

/-- Counterexample to claim C2 as stated: the left-to-right mark U+200E
is claimed to be removed by the first normalization step, but the
sanitize range stops at U+200D, so a string holding only that character
normalizes to itself rather than to the empty string. -/
theorem sanitize_keeps_ltr_mark :
    normalize [Char.ofNat 0x200E] { ignoreCase := false, ignorePunc := false } =
      [Char.ofNat 0x200E] ∧
    ([Char.ofNat 0x200E] : List Char) ≠ [] := by
  decide

/-- Claim C2 (amended): with both options false, normalize equals the
input with exactly the characters U+200B, U+200C, U+200D and U+FEFF
removed — the left-to-right mark U+200E is not in the removed class and
every occurrence of it survives. -/
theorem normalize_plain_removes_exactly_zero_width : ∀ s : List Char,
    normalize s { ignoreCase := false, ignorePunc := false } =
      s.filter (fun c => !(isZeroWidth c)) ∧
    (∀ c : Char, isZeroWidth c =
      (decide (c.toNat = 0x200B) || decide (c.toNat = 0x200C) ||
       decide (c.toNat = 0x200D) || decide (c.toNat = 0xFEFF))) ∧
    (normalize s { ignoreCase := false, ignorePunc := false }).count (Char.ofNat 0x200E) =
      s.count (Char.ofNat 0x200E) := by
  intro s
  have hmain : normalize s { ignoreCase := false, ignorePunc := false } =
      s.filter (fun c => !(isZeroWidth c)) := by
    simp [normalize, sanitize]
  refine ⟨hmain, ?_, ?_⟩
  · intro c
    rw [isZeroWidth, Bool.eq_iff_iff]
    simp only [decide_eq_true_eq, Bool.or_eq_true]
    omega
  · rw [hmain]
    exact List.count_filter (by decide)

/-- Claim C1: calcStats returns totalWords = number of normalized
reference words, wordsTyped = number of normalized attempt words, and
accuracy = round(correct / max(1, totalWords) * 100) clamped to
[0, 100], where correct counts the indices below both lengths holding
equal words; on the concrete inputs of the claim it returns 67/2/3, and
with an empty reference it returns totalWords 0 and accuracy 0. -/
theorem calcStats_matches_spec : ∀ (r a : List Char) (o : Options),
    ((calcStats r a o).totalWords = (splitWords (normalize r o)).length ∧
     (calcStats r a o).wordsTyped = (splitWords (normalize a o)).length ∧
     ((calcStats r a o).accuracy : ℤ) =
       specAccuracy
         (specCorrectCount (splitWords (normalize r o)) (splitWords (normalize a o)))
         (splitWords (normalize r o)).length) ∧
    calcStats ("one two three".toList) ("one two".toList)
        { ignoreCase := true, ignorePunc := false } =
      { accuracy := 67, wordsTyped := 2, totalWords := 3 } ∧
    (∀ (a2 : List Char) (o2 : Options),
      (calcStats [] a2 o2).totalWords = 0 ∧ (calcStats [] a2 o2).accuracy = 0) := by
  intro r a o
  refine ⟨⟨rfl, rfl, ?_⟩, by decide, ?_⟩
  · rw [calcStats_accuracy_eq, cast_clamp, countCorrect_eq_spec, total_eq_max, specAccuracy]
    congr 1
    congr 1
    rw [← jsRound_natDiv _ _ (show 0 < max 1 (splitWords (normalize r o)).length by omega)]
    congr 1
    push_cast
    ring
  · intro a2 o2
    constructor
    · show (splitWords (normalize [] o2)).length = 0
      rw [normalize_nil, splitWords_nil]
      rfl
    · rw [calcStats_accuracy_eq, normalize_nil, splitWords_nil, countCorrect_nil_left]
      rfl

/-- Claim C3: classify produces one entry per raw reference word, in
original order, with the raw word as display word, and the state of
entry i is pending when the i-th normalized attempt word is absent or
empty, matched when the i-th normalized reference word equals the i-th
normalized attempt word, and mismatched otherwise. -/
theorem classify_entries_spec : ∀ (r a : List Char) (o : Options),
    (classify r a o).length = (splitWords r).length ∧
    ∀ i, i < (splitWords r).length →
      (classify r a o).getD i ([], WordState.missing) =
        ((splitWords r).getD i [],
          claimState (splitWords (normalize r o)) (splitWords (normalize a o)) i) := by
  intro r a o
  refine ⟨classify_length r a o, ?_⟩
  intro i hi
  rw [classify_getD r a o i hi, stateAt_eq_claimState]

/-- Witness for claim C3 at the reference "a b", attempt "a", index 1
(a pending entry). -/
theorem classify_entries_spec_witness :
    1 < (splitWords ("a b".toList)).length ∧
    (classify ("a b".toList) ("a".toList) { ignoreCase := false, ignorePunc := false }).getD 1
        ([], WordState.missing) =
      ((splitWords ("a b".toList)).getD 1 [],
        claimState
          (splitWords (normalize ("a b".toList) { ignoreCase := false, ignorePunc := false }))
          (splitWords (normalize ("a".toList) { ignoreCase := false, ignorePunc := false }))
          1) :=
  ⟨by decide, (classify_entries_spec ("a b".toList) ("a".toList)
    { ignoreCase := false, ignorePunc := false }).2 1 (by decide)⟩

/-- Counterexample to claim C4 as stated: with ignorePunc true, the
reference "," consists of one raw word whose normalization is empty, so
even though the attempt equals the reference (hence the normalized
texts are equal), the single classification entry is pending, not
matched. -/
theorem classify_counterexample_punctuation_word :
    normalize [','] { ignoreCase := false, ignorePunc := true } =
      normalize [','] { ignoreCase := false, ignorePunc := true } ∧
    classify [','] [','] { ignoreCase := false, ignorePunc := true } =
      [([','], WordState.missing)] ∧
    WordState.missing ≠ WordState.ok := by
  decide

/-- Claim C4 (amended): if the normalized attempt equals the normalized
reference, every classification entry whose index has a normalized
reference word is matched, and every later entry (possible only when
normalization deletes a whole raw word) is pending; if the attempt is
empty, every entry is pending. -/
theorem classify_full_match_states : ∀ (r a : List Char) (o : Options),
    (normalize a o = normalize r o →
      ∀ i, i < (classify r a o).length →
        ((classify r a o).getD i ([], WordState.missing)).2 =
          (if i < (splitWords (normalize r o)).length then WordState.ok
           else WordState.missing)) ∧
    (∀ i, i < (classify r [] o).length →
      ((classify r [] o).getD i ([], WordState.missing)).2 = WordState.missing) := by
  intro r a o
  constructor
  · intro hn i hi
    rw [classify_length] at hi
    rw [classify_getD r a o i hi, hn]
    by_cases hlt : i < (splitWords (normalize r o)).length
    · rw [if_pos hlt]
      have hne : (splitWords (normalize r o)).getD i [] ≠ [] :=
        splitWords_ne_nil (getD_mem hlt)
      show stateAt (splitWords (normalize r o)) (splitWords (normalize r o)) i = WordState.ok
      simp only [stateAt]
      rw [if_neg hne, if_pos ⟨hne, trivial⟩]
    · rw [if_neg hlt]
      have ha : (splitWords (normalize r o)).getD i [] = [] :=
        getD_out (Nat.le_of_not_lt hlt)
      show stateAt (splitWords (normalize r o)) (splitWords (normalize r o)) i =
        WordState.missing
      simp only [stateAt]
      rw [if_pos ha]
  · intro i hi
    rw [classify_length] at hi
    rw [classify_getD r [] o i hi]
    show stateAt (splitWords (normalize r o)) (splitWords (normalize [] o)) i =
      WordState.missing
    rw [normalize_nil, splitWords_nil]
    simp only [stateAt]
    rw [if_pos (getD_out (Nat.zero_le i))]

/-- Witness for claim C4 (amended) at reference = attempt = "a",
index 0 (a matched entry). -/
theorem classify_full_match_states_witness :
    (normalize ['a'] { ignoreCase := false, ignorePunc := false } =
        normalize ['a'] { ignoreCase := false, ignorePunc := false } ∧
      0 < (classify ['a'] ['a'] { ignoreCase := false, ignorePunc := false }).length) ∧
    ((classify ['a'] ['a'] { ignoreCase := false, ignorePunc := false }).getD 0
        ([], WordState.missing)).2 =
      (if 0 < (splitWords (normalize ['a'] { ignoreCase := false, ignorePunc := false })).length
       then WordState.ok else WordState.missing) :=
  ⟨⟨rfl, by decide⟩,
   (classify_full_match_states ['a'] ['a'] { ignoreCase := false, ignorePunc := false }).1
     rfl 0 (by decide)⟩

/-- Claim C6: for a fixed reference and options, if attempt a2 has at
least as many positional matches against the reference as attempt a1,
then its accuracy is at least as large. -/
theorem accuracy_monotone : ∀ (r : List Char) (o : Options) (a1 a2 : List Char),
    countCorrect (splitWords (normalize r o)) (splitWords (normalize a1 o)) ≤
      countCorrect (splitWords (normalize r o)) (splitWords (normalize a2 o)) →
    (calcStats r a1 o).accuracy ≤ (calcStats r a2 o).accuracy := by
  intro r o a1 a2 h
  rw [calcStats_accuracy_eq, calcStats_accuracy_eq]
  have hd : roundDiv
      (countCorrect (splitWords (normalize r o)) (splitWords (normalize a1 o)) * 100)
      (if (splitWords (normalize r o)).length = 0 then 1
       else (splitWords (normalize r o)).length) ≤
    roundDiv
      (countCorrect (splitWords (normalize r o)) (splitWords (normalize a2 o)) * 100)
      (if (splitWords (normalize r o)).length = 0 then 1
       else (splitWords (normalize r o)).length) := by
    unfold roundDiv
    apply Nat.div_le_div_right
    omega
  omega

/-- Witness for claim C6: against the reference "a b", the empty attempt
has no positional match and "a b" has two, and the accuracies compare
accordingly. -/
theorem accuracy_monotone_witness :
    countCorrect (splitWords (normalize ("a b".toList) { ignoreCase := false, ignorePunc := false }))
        (splitWords (normalize [] { ignoreCase := false, ignorePunc := false })) ≤
      countCorrect (splitWords (normalize ("a b".toList) { ignoreCase := false, ignorePunc := false }))
        (splitWords (normalize ("a b".toList) { ignoreCase := false, ignorePunc := false })) ∧
    (calcStats ("a b".toList) [] { ignoreCase := false, ignorePunc := false }).accuracy ≤
      (calcStats ("a b".toList) ("a b".toList) { ignoreCase := false, ignorePunc := false }).accuracy :=
  ⟨by decide, accuracy_monotone ("a b".toList) { ignoreCase := false, ignorePunc := false }
    [] ("a b".toList) (by decide)⟩

/-- Claim C9: the positional-match count never exceeds max 1 totalWords,
the rounded percentage already lies in [0, 100] so the clamp of the
source never changes it, and the returned accuracy equals the unclamped
rounded value and is at most 100. -/
theorem accuracy_clamp_redundant : ∀ (r a : List Char) (o : Options),
    countCorrect (splitWords (normalize r o)) (splitWords (normalize a o)) ≤
      max 1 (calcStats r a o).totalWords ∧
    (0 : ℤ) ≤ jsRound
      (((countCorrect (splitWords (normalize r o)) (splitWords (normalize a o)) : ℚ) /
        ((max 1 (splitWords (normalize r o)).length : Nat) : ℚ)) * 100) ∧
    jsRound
      (((countCorrect (splitWords (normalize r o)) (splitWords (normalize a o)) : ℚ) /
        ((max 1 (splitWords (normalize r o)).length : Nat) : ℚ)) * 100) ≤ 100 ∧
    max 0 (min 100 (jsRound
      (((countCorrect (splitWords (normalize r o)) (splitWords (normalize a o)) : ℚ) /
        ((max 1 (splitWords (normalize r o)).length : Nat) : ℚ)) * 100))) =
      jsRound
        (((countCorrect (splitWords (normalize r o)) (splitWords (normalize a o)) : ℚ) /
          ((max 1 (splitWords (normalize r o)).length : Nat) : ℚ)) * 100) ∧
    ((calcStats r a o).accuracy : ℤ) = jsRound
      (((countCorrect (splitWords (normalize r o)) (splitWords (normalize a o)) : ℚ) /
        ((max 1 (splitWords (normalize r o)).length : Nat) : ℚ)) * 100) ∧
    (calcStats r a o).accuracy ≤ 100 := by
  intro r a o
  have hc : countCorrect (splitWords (normalize r o)) (splitWords (normalize a o)) ≤
      (splitWords (normalize r o)).length := countCorrect_le_left _ _
  have hcm : countCorrect (splitWords (normalize r o)) (splitWords (normalize a o)) ≤
      max 1 (splitWords (normalize r o)).length := le_trans hc (le_max_right 1 _)
  have harg : ((countCorrect (splitWords (normalize r o)) (splitWords (normalize a o)) : ℚ) /
      ((max 1 (splitWords (normalize r o)).length : Nat) : ℚ)) * 100 =
      ((countCorrect (splitWords (normalize r o)) (splitWords (normalize a o)) * 100 : Nat) : ℚ) /
      ((max 1 (splitWords (normalize r o)).length : Nat) : ℚ) := by
    push_cast
    ring
  have hjr : jsRound
      (((countCorrect (splitWords (normalize r o)) (splitWords (normalize a o)) : ℚ) /
        ((max 1 (splitWords (normalize r o)).length : Nat) : ℚ)) * 100) =
      (roundDiv (countCorrect (splitWords (normalize r o)) (splitWords (normalize a o)) * 100)
        (max 1 (splitWords (normalize r o)).length) : ℤ) := by
    rw [harg]
    exact jsRound_natDiv _ _ (by omega)
  have hb : roundDiv (countCorrect (splitWords (normalize r o)) (splitWords (normalize a o)) * 100)
      (max 1 (splitWords (normalize r o)).length) ≤ 100 :=
    roundDiv_le_100 (by omega) hcm
  have hacc : (calcStats r a o).accuracy =
      roundDiv (countCorrect (splitWords (normalize r o)) (splitWords (normalize a o)) * 100)
        (max 1 (splitWords (normalize r o)).length) := by
    rw [calcStats_accuracy_eq, total_eq_max]
    omega
  refine ⟨hcm, ?_, ?_, ?_, ?_, ?_⟩
  · rw [hjr]
    exact Int.natCast_nonneg _
  · rw [hjr]
    exact_mod_cast hb
  · rw [hjr]
    have h0 : (0 : ℤ) ≤ (roundDiv
        (countCorrect (splitWords (normalize r o)) (splitWords (normalize a o)) * 100)
        (max 1 (splitWords (normalize r o)).length) : ℤ) := Int.natCast_nonneg _
    have h100 : (roundDiv
        (countCorrect (splitWords (normalize r o)) (splitWords (normalize a o)) * 100)
        (max 1 (splitWords (normalize r o)).length) : ℤ) ≤ 100 := by exact_mod_cast hb
    omega
  · rw [hjr, hacc]
  · rw [hacc]
    exact hb

/-- Claim C10: a classification position whose normalized reference word
is absent or empty is never matched — it is pending when the attempt
word there is absent or empty and mismatched otherwise. -/
theorem empty_norm_ref_word_never_matched : ∀ (r a : List Char) (o : Options) (i : Nat),
    i < (classify r a o).length →
    (splitWords (normalize r o)).getD i [] = [] →
    ((classify r a o).getD i ([], WordState.missing)).2 ≠ WordState.ok ∧
    ((classify r a o).getD i ([], WordState.missing)).2 =
      (if (splitWords (normalize a o)).getD i [] = [] then WordState.missing
       else WordState.no) := by
  intro r a o i hi href
  rw [classify_length] at hi
  rw [classify_getD r a o i hi]
  have hs : stateAt (splitWords (normalize r o)) (splitWords (normalize a o)) i =
      (if (splitWords (normalize a o)).getD i [] = [] then WordState.missing
       else WordState.no) := by
    simp only [stateAt]
    by_cases hA : (splitWords (normalize a o)).getD i [] = []
    · rw [if_pos hA, if_pos hA]
    · rw [if_neg hA, if_neg hA, if_neg (fun hc => hc.1 href)]
  refine ⟨?_, hs⟩
  rw [hs]
  split_ifs <;> simp

/-- Witness for claim C10: reference ",", attempt "x", ignorePunc true,
index 0 — the normalized reference word is empty and the entry is
mismatched. -/
theorem empty_norm_ref_word_never_matched_witness :
    (0 < (classify [','] ['x'] { ignoreCase := false, ignorePunc := true }).length ∧
      (splitWords (normalize [','] { ignoreCase := false, ignorePunc := true })).getD 0 [] = []) ∧
    ((classify [','] ['x'] { ignoreCase := false, ignorePunc := true }).getD 0
        ([], WordState.missing)).2 ≠ WordState.ok ∧
    ((classify [','] ['x'] { ignoreCase := false, ignorePunc := true }).getD 0
        ([], WordState.missing)).2 =
      (if (splitWords (normalize ['x'] { ignoreCase := false, ignorePunc := true })).getD 0 [] = []
       then WordState.missing else WordState.no) :=
  ⟨⟨by decide, by decide⟩,
   empty_norm_ref_word_never_matched [','] ['x'] { ignoreCase := false, ignorePunc := true } 0
     (by decide) (by decide)⟩

/-- Claim C8: the words-per-minute value is
round(wordsTyped / max(1/60, elapsedSeconds/60)); the denominator is at
least one second of a minute, hence positive, so no division by zero
occurs; at elapsedSeconds = 0 the value is wordsTyped * 60 (the rounded
value of an integer), and from one second on it is round(60 *
wordsTyped / elapsedSeconds). -/
theorem wpm_formula_spec : ∀ w s : Nat,
    (0 : ℚ) < wpmMinutes s ∧
    (1/60 : ℚ) ≤ wpmMinutes s ∧
    wpm w s = jsRound ((w : ℚ) / max (1/60 : ℚ) ((s : ℚ) / 60)) ∧
    wpm w 0 = 60 * w ∧
    (1 ≤ s → wpm w s = jsRound ((60 * (w : ℚ)) / (s : ℚ))) := by
  intro w s
  refine ⟨lt_of_lt_of_le (by norm_num) (le_max_left _ _), le_max_left _ _, rfl, ?_, ?_⟩
  · have hm : wpmMinutes 0 = 1/60 := by
      rw [wpmMinutes]
      norm_num
    have hv : (w : ℚ) / (1/60) = ((60 * w : Nat) : ℚ) := by
      push_cast
      field_simp
      ring
    rw [wpm, hm, hv, jsRound]
    have h2 : ((60 * w : Nat) : ℚ) + 1/2 =
        ((2 * (60 * w) + 1 : Nat) : ℚ) / ((2 : Nat) : ℚ) := by
      push_cast
      field_simp
      ring
    rw [h2, Rat.floor_natCast_div_natCast]
    push_cast
    omega
  · intro hs
    have hsq : (1 : ℚ) ≤ (s : ℚ) := by exact_mod_cast hs
    have hm : wpmMinutes s = (s : ℚ) / 60 := by
      rw [wpmMinutes]
      apply max_eq_right
      linarith
    have hv : (w : ℚ) / ((s : ℚ) / 60) = (60 * (w : ℚ)) / (s : ℚ) := by
      rw [div_div_eq_mul_div]
      ring
    rw [wpm, hm, hv]

/-- Witness for claim C8 at wordsTyped 2 and 60 elapsed seconds. -/
theorem wpm_formula_spec_witness :
    1 ≤ 60 ∧ wpm 2 60 = jsRound ((60 * ((2 : Nat) : ℚ)) / ((60 : Nat) : ℚ)) :=
  ⟨by decide, (wpm_formula_spec 2 60).2.2.2.2 (by decide)⟩

end MemoryTrainer
